import Mathlib

/-!
Verification of the RecSys recommendation pipeline (src/projectRec.cpp).

The C++ code is embedded shallowly: `double` becomes `ℝ`, `int` becomes `ℤ`
(with the value-range side conditions of 32-bit `int` made explicit where a
cast matters), `std::vector` becomes `List`, and the unordered-map
accumulation is modelled as an association list processed in first-insertion
order.  `std::sort` with the comparator `a.second > b.second` is modelled by
an insertion sort producing a non-increasing-by-score permutation, which is
exactly what the unspecified-tie-order C++ sort guarantees.  The two
`std::shuffle` calls of `getRandomizedRecommendations` are nondeterministic;
they are modelled by explicit function parameters that are assumed to
permute their argument.
-/

namespace RecSys

/-- Tag: a named, real-valued attribute (struct Tag). -/
structure Tag where
  name : String
  value : ℝ

/-- Work: a catalog item with id, tags and engagement metrics (struct Work). -/
structure Work where
  id : String
  tags : List Tag
  viewCount : ℝ
  interactionTime : ℝ

/-- UserProfile: the querying user's tag vector (struct UserProfile). -/
structure UserProfile where
  tags : List Tag

/-- SimilarUser: a peer with a similarity weight and liked work ids
(struct SimilarUser). -/
structure SimilarUser where
  id : String
  similarity : ℝ
  likedWorks : List String

/-- MetricsConfig: weights controlling metric influence (struct MetricsConfig). -/
structure MetricsConfig where
  useMetrics : Bool
  weightViews : ℝ
  weightTime : ℝ
  weightTags : ℝ

/-- Embedding of `cosineSimilarity` (projectRec.cpp lines 59-80).  The outer
loop over `work.tags` accumulates both the work norm and the dot product in
one pass; the inner loop over `user.tags` with `break` on the first
name-equal user tag is `List.find?`. -/
noncomputable def cosineSimilarity (user : UserProfile) (work : Work) : ℝ :=
  let normUser2 : ℝ := user.tags.foldl (fun acc tag => acc + tag.value * tag.value) 0
  let workAcc : ℝ × ℝ := work.tags.foldl
    (fun acc tag =>
      (acc.1 + tag.value * tag.value,
        acc.2 + match user.tags.find? (fun utag => utag.name == tag.name) with
          | some utag => utag.value * tag.value
          | none => 0))
    (0, 0)
  let normUser : ℝ := Real.sqrt normUser2
  let normWork : ℝ := Real.sqrt workAcc.1
  if normUser = 0 ∨ normWork = 0 then 0 else workAcc.2 / (normUser * normWork)

/-- Value of the first user tag whose name equals `nm`, or 0 if none matches
(the spec's matching policy for the dot product). -/
def matchVal (uts : List Tag) (nm : String) : ℝ :=
  match uts.find? (fun utag => utag.name == nm) with
  | some utag => utag.value
  | none => 0

/-- Sum of squared tag values (square of the Euclidean norm of a tag list). -/
def sumSq (l : List Tag) : ℝ :=
  (l.map (fun t => t.value ^ 2)).sum

/-- Spec-level dot product: sum over the item's tags of the tag value times
the first matching user tag value. -/
def dotProd (uts : List Tag) (wts : List Tag) : ℝ :=
  (wts.map (fun t => t.value * matchVal uts t.name)).sum

lemma foldl_sumSq (l : List Tag) (a : ℝ) :
    l.foldl (fun acc tag => acc + tag.value * tag.value) a = a + sumSq l := by
  induction l generalizing a with
  | nil => simp [sumSq]
  | cons t l ih =>
    simp only [List.foldl_cons, ih, sumSq, List.map_cons, List.sum_cons]
    ring

lemma foldl_workAcc (uts : List Tag) (l : List Tag) (a b : ℝ) :
    l.foldl
      (fun acc tag =>
        (acc.1 + tag.value * tag.value,
          acc.2 + match uts.find? (fun utag => utag.name == tag.name) with
            | some utag => utag.value * tag.value
            | none => 0))
      (a, b)
      = (a + sumSq l, b + dotProd uts l) := by
  induction l generalizing a b with
  | nil => simp [sumSq, dotProd]
  | cons t l ih =>
    simp only [List.foldl_cons, ih, sumSq, dotProd, List.map_cons, List.sum_cons]
    cases hf : uts.find? (fun utag => utag.name == t.name) with
    | none => simp only [matchVal, hf, Prod.mk.injEq]; exact ⟨by ring, by ring⟩
    | some u => simp only [matchVal, hf, Prod.mk.injEq]; exact ⟨by ring, by ring⟩

lemma cosineSimilarity_eq_div (user : UserProfile) (work : Work) :
    cosineSimilarity user work =
      if Real.sqrt (sumSq user.tags) = 0 ∨ Real.sqrt (sumSq work.tags) = 0 then 0
      else dotProd user.tags work.tags /
        (Real.sqrt (sumSq user.tags) * Real.sqrt (sumSq work.tags)) := by
  simp only [cosineSimilarity, foldl_sumSq, foldl_workAcc, zero_add]

lemma sumSq_nil : sumSq [] = 0 := by simp [sumSq]

lemma sumSq_cons (t : Tag) (l : List Tag) : sumSq (t :: l) = t.value ^ 2 + sumSq l := by
  simp [sumSq]

lemma sumSq_nonneg (l : List Tag) : 0 ≤ sumSq l := by
  apply List.sum_nonneg
  intro x hx
  simp only [List.mem_map] at hx
  obtain ⟨t, _, rfl⟩ := hx
  exact sq_nonneg _

lemma map_sum_eq_fin_sum {α : Type*} (l : List α) (f : α → ℝ) :
    (l.map f).sum = ∑ i : Fin l.length, f (l.get i) := by
  induction l with
  | nil => simp
  | cons a l ih =>
    have h := Fin.sum_univ_succ (fun i : Fin (l.length + 1) => f ((a :: l).get i))
    calc (List.map f (a :: l)).sum = f a + (List.map f l).sum := by simp
      _ = f a + ∑ i : Fin l.length, f (l.get i) := by rw [ih]
      _ = ∑ i : Fin (l.length + 1), f ((a :: l).get i) := by rw [h]; simp
      _ = ∑ i : Fin (a :: l).length, f ((a :: l).get i) := rfl

lemma list_cauchy_schwarz {α : Type*} (l : List α) (f g : α → ℝ) :
    (l.map (fun a => f a * g a)).sum ≤
      Real.sqrt ((l.map (fun a => f a ^ 2)).sum) *
        Real.sqrt ((l.map (fun a => g a ^ 2)).sum) := by
  rw [map_sum_eq_fin_sum, map_sum_eq_fin_sum, map_sum_eq_fin_sum]
  exact Real.sum_mul_le_sqrt_mul_sqrt Finset.univ (fun i => f (l.get i)) (fun i => g (l.get i))

lemma find?_eraseP_ne (nm nm' : String) (h : nm' ≠ nm) (U : List Tag) :
    (U.eraseP (fun x => x.name == nm)).find? (fun x => x.name == nm') =
      U.find? (fun x => x.name == nm') := by
  induction U with
  | nil => rfl
  | cons x U ih =>
    by_cases hx : x.name = nm
    · have hb' : (nm == nm') = false := beq_eq_false_iff_ne.mpr (Ne.symm h)
      simp [List.eraseP_cons, List.find?_cons, hx, hb']
    · have hb : (x.name == nm) = false := beq_eq_false_iff_ne.mpr hx
      by_cases hx' : x.name = nm'
      · have hb3 : (nm' == nm) = false := beq_eq_false_iff_ne.mpr h
        simp [List.eraseP_cons, List.find?_cons, hb, hx', hb3]
      · have hb2 : (x.name == nm') = false := beq_eq_false_iff_ne.mpr hx'
        simp [List.eraseP_cons, List.find?_cons, hb, hb2, ih]

lemma sumSq_eraseP (nm : String) (U : List Tag) (u : Tag)
    (h : U.find? (fun x => x.name == nm) = some u) :
    sumSq U = u.value ^ 2 + sumSq (U.eraseP (fun x => x.name == nm)) := by
  induction U with
  | nil => simp at h
  | cons x U ih =>
    by_cases hx : x.name = nm
    · have hb : (x.name == nm) = true := beq_iff_eq.mpr hx
      simp only [List.find?_cons, hb] at h
      obtain rfl : x = u := by simpa using h
      simp [List.eraseP_cons, hb, sumSq_cons]
    · have hb : (x.name == nm) = false := beq_eq_false_iff_ne.mpr hx
      simp only [List.find?_cons, hb] at h
      have := ih h
      simp only [List.eraseP_cons, hb, cond_false, sumSq_cons]
      linarith

lemma matchSq_sum_le (L : List Tag) :
    ∀ U : List Tag, (L.map (fun t => t.name)).Nodup →
      (L.map (fun t => matchVal U t.name ^ 2)).sum ≤ sumSq U := by
  induction L with
  | nil => intro U _; simpa using sumSq_nonneg U
  | cons t L ih =>
    intro U h
    have hnames : t.name ∉ L.map (fun t => t.name) := (List.nodup_cons.mp (by simpa using h)).1
    have htail : (L.map (fun t => t.name)).Nodup := (List.nodup_cons.mp (by simpa using h)).2
    simp only [List.map_cons, List.sum_cons]
    cases hf : U.find? (fun x => x.name == t.name) with
    | none =>
      have h0 : matchVal U t.name = 0 := by simp [matchVal, hf]
      rw [h0]
      have := ih U htail
      simpa using this
    | some u =>
      have hv : matchVal U t.name = u.value := by simp [matchVal, hf]
      have hrw : ∀ t' ∈ L,
          matchVal U t'.name ^ 2 =
            matchVal (U.eraseP (fun x => x.name == t.name)) t'.name ^ 2 := by
        intro t' ht'
        have hne : t'.name ≠ t.name := by
          intro he
          exact hnames (he ▸ List.mem_map_of_mem _ ht')
        rw [matchVal, matchVal, find?_eraseP_ne t.name t'.name hne U]
      rw [hv, List.map_congr_left hrw]
      have hA := sumSq_eraseP t.name U u hf
      have hIH := ih (U.eraseP (fun x => x.name == t.name)) htail
      linarith

lemma matchVal_nonneg (uts : List Tag) (nm : String)
    (hu : ∀ t ∈ uts, 0 ≤ t.value) : 0 ≤ matchVal uts nm := by
  cases hf : uts.find? (fun utag => utag.name == nm) with
  | none => simp [matchVal, hf]
  | some u =>
    simp only [matchVal, hf]
    exact hu u (List.mem_of_find?_eq_some hf)

lemma cosineSimilarity_bounds (user : UserProfile) (work : Work)
    (hu : ∀ t ∈ user.tags, 0 ≤ t.value) (hw : ∀ t ∈ work.tags, 0 ≤ t.value)
    (hnd : (work.tags.map (fun t => t.name)).Nodup) :
    0 ≤ cosineSimilarity user work ∧ cosineSimilarity user work ≤ 1 := by
  rw [cosineSimilarity_eq_div]
  by_cases hz : Real.sqrt (sumSq user.tags) = 0 ∨ Real.sqrt (sumSq work.tags) = 0
  · rw [if_pos hz]
    norm_num
  · rw [if_neg hz]
    push_neg at hz
    obtain ⟨h1, h2⟩ := hz
    have hU0 : 0 < Real.sqrt (sumSq user.tags) :=
      lt_of_le_of_ne (Real.sqrt_nonneg _) (Ne.symm h1)
    have hW0 : 0 < Real.sqrt (sumSq work.tags) :=
      lt_of_le_of_ne (Real.sqrt_nonneg _) (Ne.symm h2)
    have hdenom : 0 < Real.sqrt (sumSq user.tags) * Real.sqrt (sumSq work.tags) :=
      mul_pos hU0 hW0
    constructor
    · apply div_nonneg _ hdenom.le
      apply List.sum_nonneg
      intro x hx
      simp only [List.mem_map] at hx
      obtain ⟨t, ht, rfl⟩ := hx
      exact mul_nonneg (hw t ht) (matchVal_nonneg user.tags t.name hu)
    · rw [div_le_one hdenom]
      calc dotProd user.tags work.tags
          ≤ Real.sqrt (sumSq work.tags) *
              Real.sqrt ((work.tags.map (fun t => matchVal user.tags t.name ^ 2)).sum) := by
            have hcs := list_cauchy_schwarz work.tags
              (fun t => t.value) (fun t => matchVal user.tags t.name)
            simpa [dotProd, sumSq] using hcs
        _ ≤ Real.sqrt (sumSq work.tags) * Real.sqrt (sumSq user.tags) := by
            apply mul_le_mul_of_nonneg_left _ (Real.sqrt_nonneg _)
            exact Real.sqrt_le_sqrt (matchSq_sum_le work.tags user.tags hnd)
        _ = Real.sqrt (sumSq user.tags) * Real.sqrt (sumSq work.tags) := mul_comm _ _

/-- Insertion step of the sort used to model `std::sort` with comparator
`a.second > b.second`: the entry is placed before the first entry of strictly
smaller score. -/
noncomputable def insertDesc (p : String × ℝ) : List (String × ℝ) → List (String × ℝ)
  | [] => [p]
  | q :: l => if q.2 < p.2 then p :: q :: l else q :: insertDesc p l

/-- Model of `std::sort(recs, [](a,b){ return a.second > b.second; })`: a
permutation of the input that is non-increasing by score, which is all the
unstable C++ sort guarantees. -/
noncomputable def sortDesc (l : List (String × ℝ)) : List (String × ℝ) :=
  l.foldl (fun acc p => insertDesc p acc) []

/-- A scored list is in non-increasing score order. -/
def sortedDesc (l : List (String × ℝ)) : Prop :=
  l.Pairwise (fun a b => b.2 ≤ a.2)

lemma insertDesc_cons (p q : String × ℝ) (l : List (String × ℝ)) :
    insertDesc p (q :: l) = if q.2 < p.2 then p :: q :: l else q :: insertDesc p l := rfl

lemma insertDesc_perm (p : String × ℝ) (l : List (String × ℝ)) :
    (insertDesc p l).Perm (p :: l) := by
  induction l with
  | nil => exact List.Perm.refl _
  | cons q l ih =>
    rw [insertDesc_cons]
    by_cases h : q.2 < p.2
    · rw [if_pos h]
    · rw [if_neg h]
      exact (ih.cons q).trans (List.Perm.swap p q l)

lemma sortDesc_perm_aux (l : List (String × ℝ)) :
    ∀ acc, (l.foldl (fun acc p => insertDesc p acc) acc).Perm (l ++ acc) := by
  induction l with
  | nil => intro acc; simp
  | cons p l ih =>
    intro acc
    simp only [List.foldl_cons, List.cons_append]
    exact (ih _).trans
      ((List.Perm.append_left l (insertDesc_perm p acc)).trans List.perm_middle)

lemma sortDesc_perm (l : List (String × ℝ)) : (sortDesc l).Perm l := by
  simpa using sortDesc_perm_aux l []

lemma insertDesc_sorted (p : String × ℝ) (l : List (String × ℝ))
    (h : sortedDesc l) : sortedDesc (insertDesc p l) := by
  induction l with
  | nil => simp [sortedDesc, insertDesc]
  | cons q l ih =>
    rw [insertDesc_cons]
    rcases List.pairwise_cons.mp h with ⟨hq, hl⟩
    by_cases hlt : q.2 < p.2
    · rw [if_pos hlt]
      refine List.pairwise_cons.mpr ⟨?_, h⟩
      intro b hb
      rcases List.mem_cons.mp hb with rfl | hb
      · exact hlt.le
      · exact (hq b hb).trans hlt.le
    · rw [if_neg hlt]
      refine List.pairwise_cons.mpr ⟨?_, ih hl⟩
      intro b hb
      rcases List.mem_cons.mp ((insertDesc_perm p l).mem_iff.mp hb) with rfl | hb
      · exact not_lt.mp hlt
      · exact hq b hb

lemma sortDesc_sorted (l : List (String × ℝ)) : sortedDesc (sortDesc l) := by
  have aux : ∀ acc, sortedDesc acc →
      sortedDesc (l.foldl (fun acc p => insertDesc p acc) acc) := by
    induction l with
    | nil => intro acc h; exact h
    | cons p l ih =>
      intro acc h
      exact ih _ (insertDesc_sorted p acc h)
  exact aux [] (List.Pairwise.nil)

/-- One `scoreMap[key] += v` step on the association-list model of
`std::unordered_map<string,double>` (entries kept in first-insertion order;
a missing key defaults to 0, as with `operator[]`). -/
def insertAdd (acc : List (String × ℝ)) (key : String) (v : ℝ) : List (String × ℝ) :=
  if acc.any (fun q => q.1 == key) then
    acc.map (fun q => if q.1 == key then (q.1, q.2 + v) else q)
  else acc ++ [(key, v)]

/-- Folding a list of (key, increment) pairs into the map model. -/
def accumulate (ps : List (String × ℝ)) (init : List (String × ℝ)) : List (String × ℝ) :=
  ps.foldl (fun acc p => insertAdd acc p.1 p.2) init

/-- Score stored for an id, if present. -/
def scoreOf (l : List (String × ℝ)) (id : String) : Option ℝ :=
  (l.find? (fun p => p.1 == id)).map (fun p => p.2)

/-- Score stored for an id, defaulting to 0 when absent. -/
def lookupScore (l : List (String × ℝ)) (id : String) : ℝ :=
  (scoreOf l id).getD 0

lemma insertAdd_keys (acc : List (String × ℝ)) (key : String) (v : ℝ) :
    (insertAdd acc key v).map (fun p => p.1) =
      if acc.any (fun q => q.1 == key) then acc.map (fun p => p.1)
      else acc.map (fun p => p.1) ++ [key] := by
  unfold insertAdd
  by_cases h : acc.any (fun q => q.1 == key)
  · rw [if_pos h, if_pos h, List.map_map]
    apply List.map_congr_left
    intro q _
    by_cases hq : (q.1 == key) = true
    · simp [hq, Function.comp]
    · simp [hq, Function.comp]
  · rw [if_neg h, if_neg h, List.map_append]
    rfl

lemma any_key_iff (acc : List (String × ℝ)) (key : String) :
    acc.any (fun q => q.1 == key) = true ↔ key ∈ acc.map (fun p => p.1) := by
  rw [List.any_eq_true]
  constructor
  · rintro ⟨q, hq, hqe⟩
    have : q.1 = key := beq_iff_eq.mp hqe
    exact this ▸ List.mem_map_of_mem _ hq
  · intro h
    rcases List.mem_map.mp h with ⟨q, hq, rfl⟩
    exact ⟨q, hq, beq_iff_eq.mpr rfl⟩

lemma insertAdd_keys_mem (acc : List (String × ℝ)) (key : String) (v : ℝ) (id : String) :
    id ∈ (insertAdd acc key v).map (fun p => p.1) ↔
      id ∈ acc.map (fun p => p.1) ∨ id = key := by
  rw [insertAdd_keys]
  by_cases h : acc.any (fun q => q.1 == key)
  · rw [if_pos h]
    constructor
    · exact Or.inl
    · rintro (hm | rfl)
      · exact hm
      · exact (any_key_iff acc id).mp h
  · rw [if_neg h]
    simp [List.mem_append]

lemma insertAdd_keys_nodup (acc : List (String × ℝ)) (key : String) (v : ℝ)
    (h : (acc.map (fun p => p.1)).Nodup) :
    ((insertAdd acc key v).map (fun p => p.1)).Nodup := by
  rw [insertAdd_keys]
  by_cases hh : acc.any (fun q => q.1 == key)
  · rw [if_pos hh]; exact h
  · rw [if_neg hh]
    have hk : key ∉ acc.map (fun p => p.1) := fun hm => hh ((any_key_iff acc key).mpr hm)
    rw [(List.perm_append_singleton key (acc.map (fun p => p.1))).nodup_iff,
      List.nodup_cons]
    exact ⟨hk, h⟩

lemma find?_map_update (acc : List (String × ℝ)) (key : String) (v : ℝ) (id : String) :
    (acc.map (fun q => if q.1 == key then (q.1, q.2 + v) else q)).find?
        (fun p => p.1 == id)
      = (acc.find? (fun p => p.1 == id)).map
          (fun p => if p.1 == key then (p.1, p.2 + v) else p) := by
  induction acc with
  | nil => rfl
  | cons q acc ih =>
    have hfst : (if q.1 == key then (q.1, q.2 + v) else q).1 = q.1 := by
      by_cases hq : (q.1 == key) = true
      · simp [hq]
      · simp [hq]
    by_cases hq : (q.1 == id) = true
    · simp only [List.map_cons, List.find?_cons, hfst, hq]
      rfl
    · have hq' : (q.1 == id) = false := by simpa using hq
      have hq2 : ((if q.1 == key then (q.1, q.2 + v) else q).1 == id) = false := by
        rw [hfst]; exact hq'
      simp only [List.map_cons, List.find?_cons, hq2, hq']
      exact ih

lemma scoreOf_eq_none_iff (l : List (String × ℝ)) (id : String) :
    scoreOf l id = none ↔ id ∉ l.map (fun p => p.1) := by
  constructor
  · intro h hm
    rcases List.mem_map.mp hm with ⟨p, hp, rfl⟩
    cases hf : l.find? (fun q => q.1 == p.1) with
    | none => exact List.find?_eq_none.mp hf p hp (beq_iff_eq.mpr rfl)
    | some q =>
      unfold scoreOf at h
      rw [hf] at h
      cases h
  · intro h
    have hf : l.find? (fun p => p.1 == id) = none :=
      List.find?_eq_none.mpr (fun x hx hb =>
        h (beq_iff_eq.mp hb ▸ List.mem_map_of_mem _ hx))
    unfold scoreOf
    rw [hf]
    rfl

lemma lookupScore_insertAdd (acc : List (String × ℝ)) (key : String) (v : ℝ) (id : String) :
    lookupScore (insertAdd acc key v) id =
      lookupScore acc id + (if id = key then v else 0) := by
  unfold insertAdd
  by_cases h : acc.any (fun q => q.1 == key)
  · rw [if_pos h]
    unfold lookupScore scoreOf
    rw [find?_map_update]
    cases hf : acc.find? (fun p => p.1 == id) with
    | none =>
      have hid : id ∉ acc.map (fun p => p.1) := by
        intro hm
        rcases List.mem_map.mp hm with ⟨p, hp, rfl⟩
        exact List.find?_eq_none.mp hf p hp (beq_iff_eq.mpr rfl)
      have hne : id ≠ key := fun he => hid (he ▸ (any_key_iff acc key).mp h)
      simp [hne]
    | some p =>
      have hp1 : p.1 = id := by simpa using List.find?_some hf
      by_cases he : id = key
      · have hk : p.1 = key := hp1.trans he
        simp [hk, he]
      · have hk : p.1 ≠ key := fun hc => he (hp1 ▸ hc)
        simp [hk, he]
  · rw [if_neg h]
    have hk : key ∉ acc.map (fun p => p.1) := fun hm => h ((any_key_iff acc key).mpr hm)
    unfold lookupScore scoreOf
    rw [List.find?_append]
    cases hf : acc.find? (fun p => p.1 == id) with
    | some p =>
      have hp1 : p.1 = id := by simpa using List.find?_some hf
      have hne : id ≠ key := fun he =>
        hk (he ▸ hp1 ▸ List.mem_map_of_mem _ (List.mem_of_find?_eq_some hf))
      simp [hne]
    | none =>
      have hid : id ∉ acc.map (fun p => p.1) := by
        intro hm
        rcases List.mem_map.mp hm with ⟨p, hp, rfl⟩
        exact List.find?_eq_none.mp hf p hp (beq_iff_eq.mpr rfl)
      by_cases he : id = key
      · subst he
        simp [List.find?_cons, beq_iff_eq.mpr rfl]
      · have hb : (key == id) = false := beq_eq_false_iff_ne.mpr (fun hc => he hc.symm)
        simp [List.find?_cons, hb, he]

lemma accumulate_nil (init : List (String × ℝ)) : accumulate [] init = init := rfl

lemma accumulate_cons (p : String × ℝ) (ps init : List (String × ℝ)) :
    accumulate (p :: ps) init = accumulate ps (insertAdd init p.1 p.2) := rfl

lemma accumulate_keys_mem (ps : List (String × ℝ)) :
    ∀ init id, id ∈ (accumulate ps init).map (fun p => p.1) ↔
      id ∈ init.map (fun p => p.1) ∨ id ∈ ps.map (fun p => p.1) := by
  induction ps with
  | nil => intro init id; simp [accumulate]
  | cons p ps ih =>
    intro init id
    rw [accumulate_cons, ih, insertAdd_keys_mem]
    simp only [List.map_cons, List.mem_cons]
    tauto

lemma accumulate_keys_nodup (ps : List (String × ℝ)) :
    ∀ init, (init.map (fun p => p.1)).Nodup →
      ((accumulate ps init).map (fun p => p.1)).Nodup := by
  induction ps with
  | nil => intro init h; exact h
  | cons p ps ih =>
    intro init h
    rw [accumulate_cons]
    exact ih _ (insertAdd_keys_nodup init p.1 p.2 h)

lemma lookupScore_accumulate (ps : List (String × ℝ)) :
    ∀ init id, lookupScore (accumulate ps init) id =
      lookupScore init id + ((ps.filter (fun p => p.1 == id)).map (fun p => p.2)).sum := by
  induction ps with
  | nil => intro init id; simp [accumulate]
  | cons p ps ih =>
    intro init id
    rw [accumulate_cons, ih, lookupScore_insertAdd]
    by_cases he : id = p.1
    · have hb : (p.1 == id) = true := beq_iff_eq.mpr he.symm
      rw [List.filter_cons, if_pos hb]
      simp only [List.map_cons, List.sum_cons, if_pos he]
      ring
    · have hb : (p.1 == id) = false := beq_eq_false_iff_ne.mpr (fun hc => he hc.symm)
      rw [List.filter_cons]
      simp only [hb, if_neg he, Bool.false_eq_true, if_false, add_zero]

lemma filter_sum_eq_lookup (l : List (String × ℝ)) (id : String)
    (h : (l.map (fun p => p.1)).Nodup) :
    ((l.filter (fun p => p.1 == id)).map (fun p => p.2)).sum = lookupScore l id := by
  induction l with
  | nil => simp [lookupScore, scoreOf]
  | cons q l ih =>
    have h1 : q.1 ∉ l.map (fun p => p.1) := (List.nodup_cons.mp (by simpa using h)).1
    have h2 : (l.map (fun p => p.1)).Nodup := (List.nodup_cons.mp (by simpa using h)).2
    by_cases he : q.1 = id
    · have hb : (q.1 == id) = true := beq_iff_eq.mpr he
      have hfl : l.filter (fun p => p.1 == id) = [] := by
        rw [List.filter_eq_nil_iff]
        intro a ha hc
        exact h1 (he ▸ beq_iff_eq.mp hc ▸ List.mem_map_of_mem _ ha)
      rw [List.filter_cons, if_pos hb]
      unfold lookupScore scoreOf
      rw [List.find?_cons, hb]
      simp [hfl]
    · have hb : (q.1 == id) = false := beq_eq_false_iff_ne.mpr he
      rw [List.filter_cons]
      unfold lookupScore scoreOf
      rw [List.find?_cons, hb]
      simp only [Bool.false_eq_true, if_false]
      exact ih h2

lemma pair_eq_of_keys_nodup (l : List (String × ℝ))
    (h : (l.map (fun p => p.1)).Nodup) (p q : String × ℝ)
    (hp : p ∈ l) (hq : q ∈ l) (he : p.1 = q.1) : p = q := by
  induction l with
  | nil => cases hp
  | cons x l ih =>
    have h1 : x.1 ∉ l.map (fun r => r.1) := (List.nodup_cons.mp (by simpa using h)).1
    have h2 : (l.map (fun r => r.1)).Nodup := (List.nodup_cons.mp (by simpa using h)).2
    rcases List.mem_cons.mp hp with rfl | hp' <;> rcases List.mem_cons.mp hq with rfl | hq'
    · rfl
    · exact absurd (he ▸ List.mem_map_of_mem (fun r => r.1) hq') h1
    · exact absurd (he ▸ List.mem_map_of_mem (fun r => r.1) hp') h1
    · exact ih h2 hp' hq'

lemma scoreOf_eq_some_of_mem (l : List (String × ℝ))
    (h : (l.map (fun p => p.1)).Nodup) (p : String × ℝ) (hp : p ∈ l) :
    scoreOf l p.1 = some p.2 := by
  cases hf : l.find? (fun q => q.1 == p.1) with
  | none =>
    exact absurd (List.find?_eq_none.mp hf p hp) (by simp)
  | some q =>
    have hq1 : q.1 = p.1 := by simpa using List.find?_some hf
    have hqm : q ∈ l := List.mem_of_find?_eq_some hf
    have : q = p := pair_eq_of_keys_nodup l h q p hqm hp hq1
    unfold scoreOf
    rw [hf, this]
    rfl

lemma scoreOf_perm (l l' : List (String × ℝ)) (hp : l.Perm l')
    (h : (l.map (fun p => p.1)).Nodup) (id : String) :
    scoreOf l id = scoreOf l' id := by
  have h' : (l'.map (fun p => p.1)).Nodup := ((hp.map (fun p => p.1)).nodup_iff).mp h
  by_cases hid : id ∈ l.map (fun p => p.1)
  · rcases List.mem_map.mp hid with ⟨p, hpl, rfl⟩
    rw [scoreOf_eq_some_of_mem l h p hpl,
      scoreOf_eq_some_of_mem l' h' p (hp.mem_iff.mp hpl)]
  · have hid' : id ∉ l'.map (fun p => p.1) := fun hm =>
      hid ((hp.map (fun p => p.1)).mem_iff.mpr hm)
    rw [(scoreOf_eq_none_iff l id).mpr hid, (scoreOf_eq_none_iff l' id).mpr hid']

/-- Embedding of `computeWorkScore` (projectRec.cpp lines 85-94). -/
noncomputable def computeWorkScore (user : UserProfile) (work : Work)
    (config : MetricsConfig) (maxViews maxTime : ℝ) : ℝ :=
  let score := config.weightTags * cosineSimilarity user work
  if config.useMetrics then
    score + config.weightViews * (if maxViews > 0 then work.viewCount / maxViews else 0)
      + config.weightTime * (if maxTime > 0 then work.interactionTime / maxTime else 0)
  else score

/-- Embedding of `recommendContentBased` (projectRec.cpp lines 102-120).  The
single C++ loop updating both running maxima is rendered as two independent
folds with the loop's exact update step. -/
noncomputable def recommendContentBased (user : UserProfile) (works : List Work)
    (config : MetricsConfig) : List (String × ℝ) :=
  let maxViews := works.foldl (fun m w => if w.viewCount > m then w.viewCount else m) 0
  let maxTime :=
    works.foldl (fun m w => if w.interactionTime > m then w.interactionTime else m) 0
  sortDesc (works.map (fun w => (w.id, computeWorkScore user w config maxViews maxTime)))

/-- Embedding of `recommendCollaborative` (projectRec.cpp lines 125-137). -/
noncomputable def recommendCollaborative (similarUsers : List SimilarUser) :
    List (String × ℝ) :=
  let scoreMap := similarUsers.foldl
    (fun acc user =>
      user.likedWorks.foldl (fun acc2 workId => insertAdd acc2 workId user.similarity) acc)
    []
  sortDesc scoreMap

/-- Embedding of `combineRecommendations` (projectRec.cpp lines 145-163). -/
noncomputable def combineRecommendations (contentRecs collabRecs : List (String × ℝ))
    (contentWeight collabWeight : ℝ) : List (String × ℝ) :=
  let combined := accumulate (collabRecs.map (fun p => (p.1, collabWeight * p.2)))
    (accumulate (contentRecs.map (fun p => (p.1, contentWeight * p.2))) [])
  sortDesc combined

/-- C++ `static_cast<int>` on a double: truncation toward zero. -/
noncomputable def truncToInt (x : ℝ) : ℤ := if 0 ≤ x then ⌊x⌋ else ⌈x⌉

/-- Embedding of `getRandomizedRecommendations` (projectRec.cpp lines 172-199).
The two `std::shuffle` outcomes are the function parameters `shuffleA` (on the
`remaining` pool) and `shuffleB` (on the final list); theorems assume they
permute their argument.  The loop bound `static_cast<size_t>(numTop)` wraps a
negative 32-bit `numTop` to a huge unsigned value, modelled by `% 2 ^ 64`;
the other loops compare as `int`, so a negative bound takes nothing
(`Int.toNat` of a negative is 0). -/
noncomputable def getRandomizedRecommendations
    (shuffleA shuffleB : List (String × ℝ) → List (String × ℝ))
    (recs : List (String × ℝ)) (numRecommendations : ℤ) (randomFactor : ℝ) :
    List (String × ℝ) :=
  if numRecommendations ≤ 0 then []
  else
    let numRandom : ℤ := truncToInt ((numRecommendations : ℝ) * randomFactor)
    let numTop : ℤ := numRecommendations - numRandom
    let finalTop := recs.take ((numTop % (2 : ℤ) ^ 64).toNat)
    let remaining := recs.take numTop.toNat
    let randPart := (shuffleA remaining).take numRandom.toNat
    shuffleB (finalTop ++ randPart)

/-- Spec-level maximum of a metric over the catalog (0 for an empty catalog). -/
def maxMetric (works : List Work) (f : Work → ℝ) : ℝ :=
  (works.map f).foldr max 0

/-- Spec-level per-item content score (spec section 4.2): tag weight times
cosine similarity, plus the normalized metric terms when `useMetrics` is on,
each normalization term being 0 when its catalog maximum is 0. -/
noncomputable def contentScoreSpec (user : UserProfile) (works : List Work)
    (config : MetricsConfig) (w : Work) : ℝ :=
  config.weightTags * cosineSimilarity user w +
    (if config.useMetrics then
        config.weightViews *
          (if maxMetric works (fun x => x.viewCount) = 0 then 0
           else w.viewCount / maxMetric works (fun x => x.viewCount)) +
        config.weightTime *
          (if maxMetric works (fun x => x.interactionTime) = 0 then 0
           else w.interactionTime / maxMetric works (fun x => x.interactionTime))
      else 0)

lemma maxMetric_nonneg (works : List Work) (f : Work → ℝ) : 0 ≤ maxMetric works f := by
  unfold maxMetric
  induction works with
  | nil => simp
  | cons w works ih =>
    simp only [List.map_cons, List.foldr_cons]
    exact le_trans ih (le_max_right _ _)

lemma foldl_if_max_eq (f : Work → ℝ) (works : List Work) :
    ∀ a : ℝ, 0 ≤ a →
      works.foldl (fun m w => if f w > m then f w else m) a =
        max a ((works.map f).foldr max 0) := by
  induction works with
  | nil =>
    intro a ha
    simp only [List.foldl_nil, List.map_nil, List.foldr_nil]
    exact (max_eq_left ha).symm
  | cons w works ih =>
    intro a ha
    simp only [List.foldl_cons, List.map_cons, List.foldr_cons]
    have hstep : (if f w > a then f w else a) = max a (f w) := by
      by_cases h : f w > a
      · rw [if_pos h, max_eq_right h.le]
      · rw [if_neg h, max_eq_left (not_lt.mp h)]
    rw [hstep, ih (max a (f w)) (le_trans ha (le_max_left _ _)), max_assoc]

lemma foldl_max_code_eq (f : Work → ℝ) (works : List Work) :
    works.foldl (fun m w => if f w > m then f w else m) 0 = maxMetric works f := by
  rw [foldl_if_max_eq f works 0 le_rfl]
  exact max_eq_right (maxMetric_nonneg works f)

lemma normTerm_eq (M x : ℝ) (hM : 0 ≤ M) :
    (if M > 0 then x / M else 0) = (if M = 0 then 0 else x / M) := by
  rcases hM.eq_or_lt with h | h
  · rw [if_neg (by rw [← h]; exact lt_irrefl 0), if_pos h.symm]
  · rw [if_pos h, if_neg h.ne']

lemma maxViews_code_eq (works : List Work) :
    works.foldl (fun m x => if x.viewCount > m then x.viewCount else m) 0 =
      maxMetric works (fun x => x.viewCount) :=
  foldl_max_code_eq (fun x => x.viewCount) works

lemma maxTime_code_eq (works : List Work) :
    works.foldl (fun m x => if x.interactionTime > m then x.interactionTime else m) 0 =
      maxMetric works (fun x => x.interactionTime) :=
  foldl_max_code_eq (fun x => x.interactionTime) works

lemma computeWorkScore_eq_spec (user : UserProfile) (works : List Work)
    (config : MetricsConfig) (w : Work) :
    computeWorkScore user w config
        (works.foldl (fun m x => if x.viewCount > m then x.viewCount else m) 0)
        (works.foldl (fun m x => if x.interactionTime > m then x.interactionTime else m) 0)
      = contentScoreSpec user works config w := by
  rw [maxViews_code_eq, maxTime_code_eq]
  unfold computeWorkScore contentScoreSpec
  cases hc : config.useMetrics with
  | false => simp
  | true =>
    simp only [if_true]
    rw [normTerm_eq _ _ (maxMetric_nonneg works (fun x => x.viewCount)),
      normTerm_eq _ _ (maxMetric_nonneg works (fun x => x.interactionTime))]
    ring

lemma recommendContentBased_eq_sort (user : UserProfile) (works : List Work)
    (config : MetricsConfig) :
    recommendContentBased user works config =
      sortDesc (works.map (fun w => (w.id, contentScoreSpec user works config w))) := by
  unfold recommendContentBased
  show sortDesc (works.map (fun w => (w.id, computeWorkScore user w config
      (works.foldl (fun m x => if x.viewCount > m then x.viewCount else m) 0)
      (works.foldl (fun m x => if x.interactionTime > m then x.interactionTime else m) 0))))
    = _
  congr 1
  exact List.map_congr_left (fun w _ => by rw [computeWorkScore_eq_spec])

lemma recommendContentBased_perm (user : UserProfile) (works : List Work)
    (config : MetricsConfig) :
    (recommendContentBased user works config).Perm
      (works.map (fun w => (w.id, contentScoreSpec user works config w))) := by
  rw [recommendContentBased_eq_sort]
  exact sortDesc_perm _

/-- All (liked work id, peer similarity) pairs, in the visit order of the two
nested loops of `recommendCollaborative`. -/
def peerPairs (similarUsers : List SimilarUser) : List (String × ℝ) :=
  similarUsers.foldr (fun u acc => u.likedWorks.map (fun w => (w, u.similarity)) ++ acc) []

lemma accumulate_append (a b init : List (String × ℝ)) :
    accumulate (a ++ b) init = accumulate b (accumulate a init) :=
  List.foldl_append _ _ _ _

lemma collab_fold_eq (similarUsers : List SimilarUser) :
    ∀ init, similarUsers.foldl
        (fun acc user =>
          user.likedWorks.foldl
            (fun acc2 workId => insertAdd acc2 workId user.similarity) acc)
        init
      = accumulate (peerPairs similarUsers) init := by
  induction similarUsers with
  | nil => intro init; rfl
  | cons u us ih =>
    intro init
    simp only [List.foldl_cons, peerPairs, List.foldr_cons]
    rw [ih, ← peerPairs, accumulate_append]
    congr 1
    unfold accumulate
    rw [List.foldl_map]

lemma recommendCollaborative_eq (similarUsers : List SimilarUser) :
    recommendCollaborative similarUsers =
      sortDesc (accumulate (peerPairs similarUsers) []) := by
  unfold recommendCollaborative
  rw [collab_fold_eq]

lemma peerPairs_keys (us : List SimilarUser) (id : String) :
    id ∈ (peerPairs us).map (fun p => p.1) ↔ ∃ u ∈ us, id ∈ u.likedWorks := by
  induction us with
  | nil => simp [peerPairs]
  | cons u us ih =>
    simp only [peerPairs, List.foldr_cons, List.map_append, List.mem_append]
    rw [← peerPairs, ih]
    simp only [List.map_map, List.mem_cons]
    constructor
    · rintro (hm | ⟨v, hv, hvm⟩)
      · rcases List.mem_map.mp hm with ⟨w, hw, hwe⟩
        exact ⟨u, Or.inl rfl, by simpa using hwe ▸ hw⟩
      · exact ⟨v, Or.inr hv, hvm⟩
    · rintro ⟨v, hv | hv, hvm⟩
      · subst hv
        left
        exact List.mem_map.mpr ⟨id, hvm, rfl⟩
      · exact Or.inr ⟨v, hv, hvm⟩

lemma filter_nodup_eq (liked : List String) (id : String) (h : liked.Nodup) :
    liked.filter (fun w => w == id) = if liked.contains id then [id] else [] := by
  induction liked with
  | nil => rfl
  | cons w liked ih =>
    have h1 : w ∉ liked := (List.nodup_cons.mp h).1
    have h2 : liked.Nodup := (List.nodup_cons.mp h).2
    by_cases he : w = id
    · subst he
      have hfl : liked.filter (fun x => x == w) = [] := by
        rw [List.filter_eq_nil_iff]
        intro a ha hc
        exact h1 (beq_iff_eq.mp hc ▸ ha)
      rw [List.filter_cons, if_pos (beq_iff_eq.mpr rfl), hfl]
      have : (w :: liked).contains w = true := by simp [List.contains_cons]
      rw [this]
      rfl
    · have hb : (w == id) = false := beq_eq_false_iff_ne.mpr he
      rw [List.filter_cons]
      simp only [hb, Bool.false_eq_true, if_false]
      rw [ih h2]
      have : (w :: liked).contains id = liked.contains id := by
        simp [List.contains_cons, Ne.symm he]
      rw [this]

lemma inner_filter_sum (liked : List String) (s : ℝ) (id : String) (h : liked.Nodup) :
    (((liked.map (fun w => (w, s))).filter (fun p => p.1 == id)).map
        (fun p => p.2)).sum
      = if liked.contains id then s else 0 := by
  rw [List.filter_map]
  have hcomp : ((fun p : String × ℝ => p.1 == id) ∘ fun w => (w, s)) =
      fun w => w == id := rfl
  rw [hcomp, filter_nodup_eq liked id h]
  by_cases hc : liked.contains id
  · rw [if_pos hc, if_pos hc]
    simp
  · rw [if_neg hc, if_neg hc]
    simp

lemma peerPairs_filter_sum (similarUsers : List SimilarUser) (id : String)
    (h : ∀ u ∈ similarUsers, u.likedWorks.Nodup) :
    (((peerPairs similarUsers).filter (fun p => p.1 == id)).map (fun p => p.2)).sum
      = ((similarUsers.filter (fun u => u.likedWorks.contains id)).map
          (fun u => u.similarity)).sum := by
  induction similarUsers with
  | nil => rfl
  | cons u us ih =>
    have hu : u.likedWorks.Nodup := h u (List.mem_cons_self u us)
    have hus : ∀ v ∈ us, v.likedWorks.Nodup := fun v hv => h v (List.mem_cons_of_mem u hv)
    simp only [peerPairs, List.foldr_cons]
    rw [← peerPairs, List.filter_append, List.map_append, List.sum_append, ih hus,
      inner_filter_sum u.likedWorks u.similarity id hu, List.filter_cons]
    by_cases hc : u.likedWorks.contains id
    · rw [if_pos hc, if_pos hc]
      simp
    · rw [if_neg hc, if_neg hc]
      simp

lemma getRandomized_nonpos (shuffleA shuffleB : List (String × ℝ) → List (String × ℝ))
    (recs : List (String × ℝ)) (n : ℤ) (rf : ℝ) (hn : n ≤ 0) :
    getRandomizedRecommendations shuffleA shuffleB recs n rf = [] := by
  unfold getRandomizedRecommendations
  rw [if_pos hn]

lemma getRandomized_pos_eq (shuffleA shuffleB : List (String × ℝ) → List (String × ℝ))
    (recs : List (String × ℝ)) (n : ℤ) (rf : ℝ) (hn : ¬ n ≤ 0) :
    getRandomizedRecommendations shuffleA shuffleB recs n rf =
      shuffleB (recs.take (((n - truncToInt ((n : ℝ) * rf)) % (2 : ℤ) ^ 64).toNat)
        ++ (shuffleA (recs.take (n - truncToInt ((n : ℝ) * rf)).toNat)).take
            (truncToInt ((n : ℝ) * rf)).toNat) := by
  unfold getRandomizedRecommendations
  rw [if_neg hn]

lemma truncToInt_intCast (z : ℤ) : truncToInt (z : ℝ) = z := by
  unfold truncToInt
  by_cases h : (0 : ℝ) ≤ (z : ℝ)
  · rw [if_pos h, Int.floor_intCast]
  · rw [if_neg h, Int.ceil_intCast]

lemma numRandom_bounds (n : ℤ) (rf : ℝ) (hn : 0 < n) (h0 : 0 ≤ rf) (h1 : rf ≤ 1) :
    truncToInt ((n : ℝ) * rf) = ⌊(n : ℝ) * rf⌋ ∧
      0 ≤ truncToInt ((n : ℝ) * rf) ∧ truncToInt ((n : ℝ) * rf) ≤ n := by
  have hn' : (0 : ℝ) ≤ (n : ℝ) := by exact_mod_cast hn.le
  have hx : 0 ≤ (n : ℝ) * rf := mul_nonneg hn' h0
  have he : truncToInt ((n : ℝ) * rf) = ⌊(n : ℝ) * rf⌋ := if_pos hx
  refine ⟨he, he ▸ Int.floor_nonneg.mpr hx, he ▸ ?_⟩
  have hle : (n : ℝ) * rf ≤ (n : ℝ) := by nlinarith
  calc ⌊(n : ℝ) * rf⌋ ≤ ⌊(n : ℝ)⌋ := Int.floor_le_floor hle
    _ = n := Int.floor_intCast n

lemma numTop_emod_eq (t : ℤ) (h0 : 0 ≤ t) (h1 : t < 2 ^ 64) :
    t % (2 : ℤ) ^ 64 = t :=
  Int.emod_eq_of_lt h0 h1

lemma getRandomized_mem_top (shuffleA shuffleB : List (String × ℝ) → List (String × ℝ))
    (hA : ∀ l, (shuffleA l).Perm l) (hB : ∀ l, (shuffleB l).Perm l)
    (recs : List (String × ℝ)) (n : ℤ) (rf : ℝ)
    (hn : 0 < n) (hmax : n < 2 ^ 31) (h0 : 0 ≤ rf) (h1 : rf ≤ 1) :
    ∀ e ∈ getRandomizedRecommendations shuffleA shuffleB recs n rf,
      e ∈ recs.take (n - ⌊(n : ℝ) * rf⌋).toNat := by
  obtain ⟨he, hr0, hrn⟩ := numRandom_bounds n rf hn h0 h1
  have ht0 : 0 ≤ n - truncToInt ((n : ℝ) * rf) := by omega
  have ht64 : n - truncToInt ((n : ℝ) * rf) < 2 ^ 64 := by omega
  intro e hmem
  rw [getRandomized_pos_eq shuffleA shuffleB recs n rf (by omega)] at hmem
  rw [numTop_emod_eq _ ht0 ht64] at hmem
  have hmem2 := (hB _).mem_iff.mp hmem
  rw [← he]
  rcases List.mem_append.mp hmem2 with hm | hm
  · exact hm
  · have : e ∈ shuffleA (recs.take (n - truncToInt ((n : ℝ) * rf)).toNat) :=
      List.take_subset _ _ hm
    exact (hA _).mem_iff.mp this

lemma getRandomized_zero_factor (shuffleA shuffleB : List (String × ℝ) → List (String × ℝ))
    (hA : ∀ l, (shuffleA l).Perm l) (hB : ∀ l, (shuffleB l).Perm l)
    (recs : List (String × ℝ)) (n : ℤ) (hn : 0 < n) (hmax : n < 2 ^ 31) :
    (getRandomizedRecommendations shuffleA shuffleB recs n 0).Perm
      (recs.take n.toNat) := by
  have hz : truncToInt ((n : ℝ) * 0) = 0 := by
    rw [mul_zero]
    simpa using truncToInt_intCast 0
  rw [getRandomized_pos_eq shuffleA shuffleB recs n 0 (by omega), hz, sub_zero,
    numTop_emod_eq n hn.le (by omega)]
  simp only [Int.toNat_zero, List.take_zero, List.append_nil]
  exact hB _

lemma getRandomized_length_le (shuffleA shuffleB : List (String × ℝ) → List (String × ℝ))
    (hA : ∀ l, (shuffleA l).Perm l) (hB : ∀ l, (shuffleB l).Perm l)
    (recs : List (String × ℝ)) (n : ℤ) (rf : ℝ)
    (hmax : n < 2 ^ 31) (h0 : 0 ≤ rf) (h1 : rf ≤ 1) :
    (getRandomizedRecommendations shuffleA shuffleB recs n rf).length ≤ n.toNat := by
  by_cases hn : n ≤ 0
  · rw [getRandomized_nonpos shuffleA shuffleB recs n rf hn]
    simp
  · obtain ⟨he, hr0, hrn⟩ := numRandom_bounds n rf (by omega) h0 h1
    have ht0 : 0 ≤ n - truncToInt ((n : ℝ) * rf) := by omega
    have ht64 : n - truncToInt ((n : ℝ) * rf) < 2 ^ 64 := by omega
    rw [getRandomized_pos_eq shuffleA shuffleB recs n rf hn,
      (hB _).length_eq, List.length_append, numTop_emod_eq _ ht0 ht64]
    have hl1 : (recs.take (n - truncToInt ((n : ℝ) * rf)).toNat).length ≤
        (n - truncToInt ((n : ℝ) * rf)).toNat := by
      rw [List.length_take]
      exact min_le_left _ _
    have hl2 : ((shuffleA (recs.take (n - truncToInt ((n : ℝ) * rf)).toNat)).take
        (truncToInt ((n : ℝ) * rf)).toNat).length ≤ (truncToInt ((n : ℝ) * rf)).toNat := by
      rw [List.length_take]
      exact min_le_left _ _
    have hsum : (n - truncToInt ((n : ℝ) * rf)).toNat + (truncToInt ((n : ℝ) * rf)).toNat
        = n.toNat := by omega
    omega

lemma getRandomized_no_padding (shuffleA shuffleB : List (String × ℝ) → List (String × ℝ))
    (hA : ∀ l, (shuffleA l).Perm l) (hB : ∀ l, (shuffleB l).Perm l)
    (recs : List (String × ℝ)) (n : ℤ) (rf : ℝ) :
    ∀ e ∈ getRandomizedRecommendations shuffleA shuffleB recs n rf, e ∈ recs := by
  intro e hmem
  by_cases hn : n ≤ 0
  · rw [getRandomized_nonpos shuffleA shuffleB recs n rf hn] at hmem
    cases hmem
  · rw [getRandomized_pos_eq shuffleA shuffleB recs n rf hn] at hmem
    rcases List.mem_append.mp ((hB _).mem_iff.mp hmem) with hm | hm
    · exact List.take_subset _ _ hm
    · exact List.take_subset _ _ ((hA _).mem_iff.mp (List.take_subset _ _ hm))

lemma getRandomized_full_random (shuffleA shuffleB : List (String × ℝ) → List (String × ℝ))
    (hA : ∀ l, (shuffleA l).Perm l) (hB : ∀ l, (shuffleB l).Perm l)
    (recs : List (String × ℝ)) (n : ℤ) (hn : 0 < n) :
    getRandomizedRecommendations shuffleA shuffleB recs n 1 = [] := by
  have hz : truncToInt ((n : ℝ) * 1) = n := by
    rw [mul_one]
    exact truncToInt_intCast n
  rw [getRandomized_pos_eq shuffleA shuffleB recs n 1 (by omega), hz, sub_self]
  have hempty : shuffleA [] = [] := (hA []).eq_nil
  simp only [Int.zero_emod, Int.toNat_zero, List.take_zero, List.nil_append, hempty,
    List.take_nil]
  exact (hB []).eq_nil

lemma sortDesc_keys_nodup (l : List (String × ℝ)) (h : (l.map (fun p => p.1)).Nodup) :
    ((sortDesc l).map (fun p => p.1)).Nodup :=
  (((sortDesc_perm l).map (fun p => p.1)).nodup_iff).mpr h

lemma lookupScore_nil (id : String) : lookupScore [] id = 0 := rfl

lemma scoreOf_eq_some_lookup (l : List (String × ℝ)) (h : (l.map (fun p => p.1)).Nodup)
    (id : String) (hid : id ∈ l.map (fun p => p.1)) :
    scoreOf l id = some (lookupScore l id) := by
  rcases List.mem_map.mp hid with ⟨p, hp, rfl⟩
  have hs := scoreOf_eq_some_of_mem l h p hp
  unfold lookupScore
  rw [hs]
  rfl

lemma mem_iff_key_lookup (l : List (String × ℝ)) (h : (l.map (fun p => p.1)).Nodup)
    (p : String × ℝ) :
    p ∈ l ↔ p.1 ∈ l.map (fun q => q.1) ∧ lookupScore l p.1 = p.2 := by
  constructor
  · intro hp
    refine ⟨List.mem_map_of_mem _ hp, ?_⟩
    unfold lookupScore
    rw [scoreOf_eq_some_of_mem l h p hp]
    rfl
  · rintro ⟨hk, hv⟩
    rcases List.mem_map.mp hk with ⟨q, hq, hqe⟩
    have hsq := scoreOf_eq_some_of_mem l h q hq
    have hlq : lookupScore l q.1 = q.2 := by
      unfold lookupScore
      rw [hsq]
      rfl
    have hp2 : p.2 = q.2 := by rw [← hv, ← hqe, hlq]
    have hpq : p = q := Prod.ext_iff.mpr ⟨hqe.symm, hp2⟩
    rw [hpq]
    exact hq

lemma weight_map_keys (l : List (String × ℝ)) (w : ℝ) :
    (l.map (fun p => (p.1, w * p.2))).map (fun p => p.1) = l.map (fun p => p.1) := by
  rw [List.map_map]
  rfl

lemma weight_filter_sum (l : List (String × ℝ)) (w : ℝ) (id : String) :
    (((l.map (fun p => (p.1, w * p.2))).filter (fun p => p.1 == id)).map
        (fun p => p.2)).sum
      = w * ((l.filter (fun p => p.1 == id)).map (fun p => p.2)).sum := by
  rw [List.filter_map, List.map_map]
  have h1 : ((fun p : String × ℝ => p.1 == id) ∘ fun p => (p.1, w * p.2)) =
      (fun p : String × ℝ => p.1 == id) := rfl
  have h2 : ((fun p : String × ℝ => p.2) ∘ fun p : String × ℝ => (p.1, w * p.2)) =
      (fun p : String × ℝ => w * p.2) := rfl
  rw [h1, h2]
  exact List.sum_map_mul_left _ _ _

lemma combineRecommendations_eq (A B : List (String × ℝ)) (cw kw : ℝ) :
    combineRecommendations A B cw kw =
      sortDesc (accumulate (B.map (fun p => (p.1, kw * p.2)))
        (accumulate (A.map (fun p => (p.1, cw * p.2))) [])) := rfl

lemma combine_acc_keys_nodup (A B : List (String × ℝ)) (cw kw : ℝ) :
    ((accumulate (B.map (fun p => (p.1, kw * p.2)))
        (accumulate (A.map (fun p => (p.1, cw * p.2))) [])).map (fun p => p.1)).Nodup :=
  accumulate_keys_nodup _ _ (accumulate_keys_nodup _ [] (by simp))

lemma combine_acc_keys_mem (A B : List (String × ℝ)) (cw kw : ℝ) (id : String) :
    id ∈ (accumulate (B.map (fun p => (p.1, kw * p.2)))
        (accumulate (A.map (fun p => (p.1, cw * p.2))) [])).map (fun p => p.1)
      ↔ id ∈ A.map (fun p => p.1) ∨ id ∈ B.map (fun p => p.1) := by
  rw [accumulate_keys_mem, accumulate_keys_mem, weight_map_keys, weight_map_keys]
  simp

lemma combine_acc_lookup (A B : List (String × ℝ)) (cw kw : ℝ) (id : String)
    (hA : (A.map (fun p => p.1)).Nodup) (hB : (B.map (fun p => p.1)).Nodup) :
    lookupScore (accumulate (B.map (fun p => (p.1, kw * p.2)))
        (accumulate (A.map (fun p => (p.1, cw * p.2))) [])) id
      = cw * lookupScore A id + kw * lookupScore B id := by
  rw [lookupScore_accumulate, lookupScore_accumulate, lookupScore_nil, zero_add,
    weight_filter_sum, weight_filter_sum, filter_sum_eq_lookup A id hA,
    filter_sum_eq_lookup B id hB]

lemma combine_scoreOf (A B : List (String × ℝ)) (cw kw : ℝ) (id : String)
    (hA : (A.map (fun p => p.1)).Nodup) (hB : (B.map (fun p => p.1)).Nodup) :
    scoreOf (combineRecommendations A B cw kw) id =
      if id ∈ A.map (fun p => p.1) ∨ id ∈ B.map (fun p => p.1)
      then some (cw * lookupScore A id + kw * lookupScore B id) else none := by
  rw [combineRecommendations_eq]
  have hnd := combine_acc_keys_nodup A B cw kw
  have hperm := scoreOf_perm _ _ (sortDesc_perm _) (sortDesc_keys_nodup _ hnd) id
  rw [hperm]
  by_cases hm : id ∈ A.map (fun p => p.1) ∨ id ∈ B.map (fun p => p.1)
  · rw [if_pos hm, scoreOf_eq_some_lookup _ hnd id ((combine_acc_keys_mem A B cw kw id).mpr hm),
      combine_acc_lookup A B cw kw id hA hB]
  · rw [if_neg hm]
    exact (scoreOf_eq_none_iff _ id).mpr
      (fun hmem => hm ((combine_acc_keys_mem A B cw kw id).mp hmem))

lemma combine_comm_perm (A B : List (String × ℝ)) (w : ℝ) :
    (combineRecommendations A B w w).Perm (combineRecommendations B A w w) := by
  rw [combineRecommendations_eq, combineRecommendations_eq]
  have h1 := combine_acc_keys_nodup A B w w
  have h2 := combine_acc_keys_nodup B A w w
  have hmem : ∀ id, id ∈ (accumulate (B.map (fun p => (p.1, w * p.2)))
        (accumulate (A.map (fun p => (p.1, w * p.2))) [])).map (fun p => p.1)
      ↔ id ∈ (accumulate (A.map (fun p => (p.1, w * p.2)))
        (accumulate (B.map (fun p => (p.1, w * p.2))) [])).map (fun p => p.1) := by
    intro id
    rw [combine_acc_keys_mem A B w w id, combine_acc_keys_mem B A w w id]
    tauto
  have hval : ∀ id, lookupScore (accumulate (B.map (fun p => (p.1, w * p.2)))
        (accumulate (A.map (fun p => (p.1, w * p.2))) [])) id
      = lookupScore (accumulate (A.map (fun p => (p.1, w * p.2)))
        (accumulate (B.map (fun p => (p.1, w * p.2))) [])) id := by
    intro id
    rw [lookupScore_accumulate, lookupScore_accumulate, lookupScore_accumulate,
      lookupScore_accumulate, lookupScore_nil]
    ring
  have hperm : (accumulate (B.map (fun p => (p.1, w * p.2)))
        (accumulate (A.map (fun p => (p.1, w * p.2))) [])).Perm
      (accumulate (A.map (fun p => (p.1, w * p.2)))
        (accumulate (B.map (fun p => (p.1, w * p.2))) [])) := by
    refine (List.perm_ext_iff_of_nodup (List.Nodup.of_map _ h1) (List.Nodup.of_map _ h2)).mpr ?_
    intro p
    rw [mem_iff_key_lookup _ h1 p, mem_iff_key_lookup _ h2 p, hmem p.1, hval p.1]
  exact (sortDesc_perm _).trans (hperm.trans (sortDesc_perm _).symm)

lemma collab_scenario :
    recommendCollaborative
        [SimilarUser.mk "u1" 0.8 ["X", "Y"], SimilarUser.mk "u2" 0.3 ["Y"]]
      = [("Y", 1.1), ("X", 0.8)] := by
  have h1 : recommendCollaborative
        [SimilarUser.mk "u1" 0.8 ["X", "Y"], SimilarUser.mk "u2" 0.3 ["Y"]]
      = sortDesc [("X", (0.8 : ℝ)), ("Y", (0.8 : ℝ) + 0.3)] := rfl
  rw [h1]
  unfold sortDesc
  simp only [List.foldl_cons, List.foldl_nil]
  rw [show insertDesc ("X", (0.8 : ℝ)) [] = [("X", (0.8 : ℝ))] from rfl, insertDesc_cons,
    if_pos (by norm_num : (("X", (0.8 : ℝ)) : String × ℝ).2 < (("Y", (0.8 : ℝ) + 0.3) : String × ℝ).2)]
  norm_num

/-- C1: for every ranked list, every positive `numRecommendations` (within the
32-bit `int` range of the C++ parameter), every `randomFactor` in [0,1] and
every outcome of the two shuffles, each returned entry occurs among the first
`numTop = numRecommendations - ⌊numRecommendations * randomFactor⌋` entries of
the input (the random pool is drawn from that same top slice); and with
`randomFactor = 0` the output is exactly the top `numRecommendations` entries
of the input, as a set. -/
theorem claim_randomized_top_slice
    (shuffleA shuffleB : List (String × ℝ) → List (String × ℝ))
    (hA : ∀ l, (shuffleA l).Perm l) (hB : ∀ l, (shuffleB l).Perm l)
    (recs : List (String × ℝ)) (n : ℤ) (rf : ℝ)
    (hn : 0 < n) (hmax : n < 2 ^ 31) (h0 : 0 ≤ rf) (h1 : rf ≤ 1) :
    (∀ e ∈ getRandomizedRecommendations shuffleA shuffleB recs n rf,
        e ∈ recs.take (n - ⌊(n : ℝ) * rf⌋).toNat)
    ∧ (rf = 0 →
        ∀ e, e ∈ getRandomizedRecommendations shuffleA shuffleB recs n rf ↔
          e ∈ recs.take n.toNat) := by
  refine ⟨getRandomized_mem_top shuffleA shuffleB hA hB recs n rf hn hmax h0 h1, ?_⟩
  intro hrf
  subst hrf
  intro e
  exact (getRandomized_zero_factor shuffleA shuffleB hA hB recs n hn hmax).mem_iff

theorem claim_randomized_top_slice_witness :
    (∀ e ∈ getRandomizedRecommendations (fun l => l) (fun l => l)
        [("a", 2), ("b", 1)] 1 0,
        e ∈ ([("a", (2 : ℝ)), ("b", 1)]).take ((1 - ⌊((1 : ℤ) : ℝ) * 0⌋).toNat))
    ∧ ((0 : ℝ) = 0 →
        ∀ e, e ∈ getRandomizedRecommendations (fun l => l) (fun l => l)
            [("a", 2), ("b", 1)] 1 0 ↔
          e ∈ ([("a", (2 : ℝ)), ("b", 1)]).take (1 : ℤ).toNat) :=
  claim_randomized_top_slice (fun l => l) (fun l => l) (fun l => List.Perm.refl l)
    (fun l => List.Perm.refl l) [("a", 2), ("b", 1)] 1 0 (by norm_num) (by norm_num)
    le_rfl (by norm_num)

/-- C2 counterexample: with all tag values nonnegative on both sides but a
duplicate tag name on the item side, `cosineSimilarity` returns √2 > 1, so a
value outside [0,1] does not require a negative tag value, refuting the claim
as stated. -/
theorem claim_cosine_range_counterexample :
    (∀ t ∈ (UserProfile.mk [Tag.mk "a" 1]).tags, 0 ≤ t.value)
    ∧ (∀ t ∈ (Work.mk "w" [Tag.mk "a" 1, Tag.mk "a" 1] 0 0).tags, 0 ≤ t.value)
    ∧ 1 < cosineSimilarity (UserProfile.mk [Tag.mk "a" 1])
        (Work.mk "w" [Tag.mk "a" 1, Tag.mk "a" 1] 0 0) := by
  refine ⟨?_, ?_, ?_⟩
  · intro t ht
    simp only [List.mem_singleton] at ht
    subst ht
    norm_num
  · intro t ht
    rcases List.mem_cons.mp ht with rfl | ht
    · norm_num
    · simp only [List.mem_singleton] at ht
      subst ht
      norm_num
  · rw [cosineSimilarity_eq_div]
    have hsu : sumSq (UserProfile.mk [Tag.mk "a" 1]).tags = 1 := by
      simp [sumSq]
    have hsw : sumSq (Work.mk "w" [Tag.mk "a" 1, Tag.mk "a" 1] 0 0).tags = 2 := by
      simp [sumSq]
      norm_num
    have hmv : matchVal [Tag.mk "a" 1] "a" = 1 := rfl
    have hdot : dotProd (UserProfile.mk [Tag.mk "a" 1]).tags
        (Work.mk "w" [Tag.mk "a" 1, Tag.mk "a" 1] 0 0).tags = 2 := by
      simp only [dotProd, List.map_cons, List.map_nil, List.sum_cons, List.sum_nil]
      norm_num [hmv]
    rw [hsu, hsw, hdot, Real.sqrt_one]
    rw [if_neg (by
      push_neg
      constructor
      · norm_num
      · intro hc
        rw [Real.sqrt_eq_zero'] at hc
        norm_num at hc)]
    rw [one_mul, Real.div_sqrt]
    rw [← Real.sqrt_one]
    exact Real.sqrt_lt_sqrt (by norm_num) (by norm_num)

/-- C2 (amended): `cosineSimilarity` returns a value in [0,1] whenever all tag
values of both sides are nonnegative and the item's tag names are pairwise
distinct; with duplicate item tag names the value can exceed 1 even for
nonnegative tags (see the counterexample). -/
theorem claim_cosine_range_amended (user : UserProfile) (work : Work)
    (hu : ∀ t ∈ user.tags, 0 ≤ t.value) (hw : ∀ t ∈ work.tags, 0 ≤ t.value)
    (hnd : (work.tags.map (fun t => t.name)).Nodup) :
    0 ≤ cosineSimilarity user work ∧ cosineSimilarity user work ≤ 1 :=
  cosineSimilarity_bounds user work hu hw hnd

theorem claim_cosine_range_amended_witness :
    0 ≤ cosineSimilarity (UserProfile.mk [Tag.mk "a" 1])
        (Work.mk "w" [Tag.mk "a" 1] 0 0)
    ∧ cosineSimilarity (UserProfile.mk [Tag.mk "a" 1])
        (Work.mk "w" [Tag.mk "a" 1] 0 0) ≤ 1 :=
  claim_cosine_range_amended (UserProfile.mk [Tag.mk "a" 1])
    (Work.mk "w" [Tag.mk "a" 1] 0 0)
    (by
      intro t ht
      simp only [List.mem_singleton] at ht
      subst ht
      norm_num)
    (by
      intro t ht
      simp only [List.mem_singleton] at ht
      subst ht
      norm_num)
    (by simp)

/-- C3: `cosineSimilarity` equals `dotProd / (normUser * normWork)` where the
dot product sums, over the item's tags, the tag value times the value of the
first name-matching user tag (0 when none matches), the two norms are the
Euclidean norms of the full tag lists computed independently, and the result
is exactly 0 whenever either norm is 0, so the division never runs with a
zero denominator. -/
theorem claim_cosine_formula (user : UserProfile) (work : Work) :
    cosineSimilarity user work =
      if Real.sqrt (sumSq user.tags) = 0 ∨ Real.sqrt (sumSq work.tags) = 0 then 0
      else dotProd user.tags work.tags /
        (Real.sqrt (sumSq user.tags) * Real.sqrt (sumSq work.tags)) :=
  cosineSimilarity_eq_div user work

/-- C4: `recommendContentBased` yields exactly one entry per catalog item — a
permutation of the catalog mapped to `(id, contentScoreSpec)` — the empty
catalog yields the empty list, and with `useMetrics = false` the spec score
degenerates to `weightTags * cosineSimilarity`, independent of `viewCount`
and `interactionTime`. -/
theorem claim_content_based_scores (user : UserProfile) (works : List Work)
    (config : MetricsConfig) :
    (recommendContentBased user works config).Perm
      (works.map (fun w => (w.id, contentScoreSpec user works config w)))
    ∧ recommendContentBased user [] config = []
    ∧ (config.useMetrics = false →
        ∀ w, contentScoreSpec user works config w =
          config.weightTags * cosineSimilarity user w) := by
  refine ⟨recommendContentBased_perm user works config, rfl, ?_⟩
  intro hm w
  unfold contentScoreSpec
  rw [hm]
  simp

theorem claim_content_based_scores_witness :
    (recommendContentBased (UserProfile.mk [Tag.mk "s" 1])
        [Work.mk "A" [Tag.mk "s" 1] 0 0] (MetricsConfig.mk false 0 0 1)).Perm
      ([Work.mk "A" [Tag.mk "s" 1] 0 0].map
        (fun w => (w.id, contentScoreSpec (UserProfile.mk [Tag.mk "s" 1])
          [Work.mk "A" [Tag.mk "s" 1] 0 0] (MetricsConfig.mk false 0 0 1) w)))
    ∧ recommendContentBased (UserProfile.mk [Tag.mk "s" 1]) []
        (MetricsConfig.mk false 0 0 1) = []
    ∧ ((MetricsConfig.mk false 0 0 1).useMetrics = false →
        ∀ w, contentScoreSpec (UserProfile.mk [Tag.mk "s" 1])
            [Work.mk "A" [Tag.mk "s" 1] 0 0] (MetricsConfig.mk false 0 0 1) w =
          (MetricsConfig.mk false 0 0 1).weightTags *
            cosineSimilarity (UserProfile.mk [Tag.mk "s" 1]) w) :=
  claim_content_based_scores (UserProfile.mk [Tag.mk "s" 1])
    [Work.mk "A" [Tag.mk "s" 1] 0 0] (MetricsConfig.mk false 0 0 1)

/-- C5: `recommendCollaborative` outputs one entry per distinct item id liked
by at least one peer (no entry for items liked by no peer), scored by the sum
of the similarities of the peers whose liked set contains the item; on the
two-peer scenario u1 (0.8, likes X and Y) and u2 (0.3, likes Y) the result is
Y = 1.1 first, X = 0.8 second. -/
theorem claim_collaborative_scores (peers : List SimilarUser)
    (h : ∀ u ∈ peers, u.likedWorks.Nodup) :
    ((recommendCollaborative peers).map (fun p => p.1)).Nodup
    ∧ (∀ id, id ∈ (recommendCollaborative peers).map (fun p => p.1) ↔
        ∃ u ∈ peers, id ∈ u.likedWorks)
    ∧ (∀ p ∈ recommendCollaborative peers,
        p.2 = ((peers.filter (fun u => u.likedWorks.contains p.1)).map
          (fun u => u.similarity)).sum)
    ∧ recommendCollaborative
        [SimilarUser.mk "u1" 0.8 ["X", "Y"], SimilarUser.mk "u2" 0.3 ["Y"]]
      = [("Y", 1.1), ("X", 0.8)] := by
  have hacc : ((accumulate (peerPairs peers) []).map (fun p => p.1)).Nodup :=
    accumulate_keys_nodup _ [] (by simp)
  refine ⟨?_, ?_, ?_, collab_scenario⟩
  · rw [recommendCollaborative_eq]
    exact sortDesc_keys_nodup _ hacc
  · intro id
    rw [recommendCollaborative_eq,
      ((sortDesc_perm (accumulate (peerPairs peers) [])).map (fun p => p.1)).mem_iff,
      accumulate_keys_mem]
    simp only [List.map_nil, List.not_mem_nil, false_or]
    exact peerPairs_keys peers id
  · intro p hp
    rw [recommendCollaborative_eq] at hp
    have hpacc : p ∈ accumulate (peerPairs peers) [] :=
      (sortDesc_perm _).mem_iff.mp hp
    have hlv : lookupScore (accumulate (peerPairs peers) []) p.1 = p.2 := by
      unfold lookupScore
      rw [scoreOf_eq_some_of_mem _ hacc p hpacc]
      rfl
    rw [← hlv, lookupScore_accumulate, lookupScore_nil, zero_add,
      peerPairs_filter_sum peers p.1 h]

theorem claim_collaborative_scores_witness :
    ((recommendCollaborative
        [SimilarUser.mk "u1" 0.8 ["X", "Y"], SimilarUser.mk "u2" 0.3 ["Y"]]).map
          (fun p => p.1)).Nodup
    ∧ (∀ id, id ∈ (recommendCollaborative
          [SimilarUser.mk "u1" 0.8 ["X", "Y"], SimilarUser.mk "u2" 0.3 ["Y"]]).map
            (fun p => p.1) ↔
        ∃ u ∈ [SimilarUser.mk "u1" 0.8 ["X", "Y"], SimilarUser.mk "u2" 0.3 ["Y"]],
          id ∈ u.likedWorks)
    ∧ (∀ p ∈ recommendCollaborative
          [SimilarUser.mk "u1" 0.8 ["X", "Y"], SimilarUser.mk "u2" 0.3 ["Y"]],
        p.2 = (([SimilarUser.mk "u1" 0.8 ["X", "Y"],
            SimilarUser.mk "u2" 0.3 ["Y"]].filter
              (fun u => u.likedWorks.contains p.1)).map (fun u => u.similarity)).sum)
    ∧ recommendCollaborative
        [SimilarUser.mk "u1" 0.8 ["X", "Y"], SimilarUser.mk "u2" 0.3 ["Y"]]
      = [("Y", 1.1), ("X", 0.8)] :=
  claim_collaborative_scores
    [SimilarUser.mk "u1" 0.8 ["X", "Y"], SimilarUser.mk "u2" 0.3 ["Y"]]
    (by
      intro u hu
      rcases List.mem_cons.mp hu with rfl | hu
      · decide
      · simp only [List.mem_singleton] at hu
        subst hu
        decide)

/-- C6: on inputs with at most one entry per item id,
`combineRecommendations` merges by id: the stored score for an id is
`contentWeight * contentScore + collabWeight * collabScore` with a missing
side contributing 0; an id absent from both inputs is absent from the output
(`scoreOf` is `none`), and an id present in exactly one input gets that
list's weight times its score there (the other lookup being 0). -/
theorem claim_combine_merge (A B : List (String × ℝ)) (cw kw : ℝ)
    (hA : (A.map (fun p => p.1)).Nodup) (hB : (B.map (fun p => p.1)).Nodup) :
    ∀ id : String,
      scoreOf (combineRecommendations A B cw kw) id =
        if id ∈ A.map (fun p => p.1) ∨ id ∈ B.map (fun p => p.1)
        then some (cw * lookupScore A id + kw * lookupScore B id)
        else none :=
  fun id => combine_scoreOf A B cw kw id hA hB

theorem claim_combine_merge_witness :
    scoreOf (combineRecommendations [("x", 2)] [("y", 3)] (1 / 2) (1 / 2)) "x" =
      if "x" ∈ ([("x", (2 : ℝ))].map (fun p => p.1))
          ∨ "x" ∈ ([("y", (3 : ℝ))].map (fun p => p.1))
      then some ((1 / 2) * lookupScore [("x", 2)] "x"
        + (1 / 2) * lookupScore [("y", 3)] "x")
      else none :=
  claim_combine_merge [("x", 2)] [("y", 3)] (1 / 2) (1 / 2) (by simp) (by simp) "x"

/-- C7: the outputs of `recommendContentBased` (on a catalog with unique
item ids), `recommendCollaborative` and `combineRecommendations` are each
sorted non-increasingly by score and contain at most one entry per item id. -/
theorem claim_outputs_sorted_unique (user : UserProfile) (works : List Work)
    (config : MetricsConfig) (peers : List SimilarUser)
    (A B : List (String × ℝ)) (cw kw : ℝ)
    (h : (works.map (fun w => w.id)).Nodup) :
    sortedDesc (recommendContentBased user works config)
    ∧ ((recommendContentBased user works config).map (fun p => p.1)).Nodup
    ∧ sortedDesc (recommendCollaborative peers)
    ∧ ((recommendCollaborative peers).map (fun p => p.1)).Nodup
    ∧ sortedDesc (combineRecommendations A B cw kw)
    ∧ ((combineRecommendations A B cw kw).map (fun p => p.1)).Nodup := by
  refine ⟨?_, ?_, ?_, ?_, ?_, ?_⟩
  · rw [recommendContentBased_eq_sort]
    exact sortDesc_sorted _
  · rw [recommendContentBased_eq_sort]
    apply sortDesc_keys_nodup
    rw [List.map_map]
    exact h
  · rw [recommendCollaborative_eq]
    exact sortDesc_sorted _
  · rw [recommendCollaborative_eq]
    exact sortDesc_keys_nodup _ (accumulate_keys_nodup _ [] (by simp))
  · rw [combineRecommendations_eq]
    exact sortDesc_sorted _
  · rw [combineRecommendations_eq]
    exact sortDesc_keys_nodup _ (combine_acc_keys_nodup A B cw kw)

theorem claim_outputs_sorted_unique_witness :
    sortedDesc (recommendContentBased (UserProfile.mk [Tag.mk "s" 1])
        [Work.mk "A" [Tag.mk "s" 1] 0 0] (MetricsConfig.mk false 0 0 1))
    ∧ ((recommendContentBased (UserProfile.mk [Tag.mk "s" 1])
        [Work.mk "A" [Tag.mk "s" 1] 0 0] (MetricsConfig.mk false 0 0 1)).map
          (fun p => p.1)).Nodup
    ∧ sortedDesc (recommendCollaborative [SimilarUser.mk "u1" 0.8 ["X"]])
    ∧ ((recommendCollaborative [SimilarUser.mk "u1" 0.8 ["X"]]).map
          (fun p => p.1)).Nodup
    ∧ sortedDesc (combineRecommendations [("x", 2)] [("y", 3)] (1 / 2) (1 / 2))
    ∧ ((combineRecommendations [("x", 2)] [("y", 3)] (1 / 2) (1 / 2)).map
          (fun p => p.1)).Nodup :=
  claim_outputs_sorted_unique (UserProfile.mk [Tag.mk "s" 1])
    [Work.mk "A" [Tag.mk "s" 1] 0 0] (MetricsConfig.mk false 0 0 1)
    [SimilarUser.mk "u1" 0.8 ["X"]] [("x", 2)] [("y", 3)] (1 / 2) (1 / 2) (by simp)

/-- C8 counterexample: the claimed universal length bound fails outside
`randomFactor ∈ [0,1]`: with 3 entries available, `numRecommendations = 2`
and `randomFactor = -1` the function returns 3 entries (more than requested);
and it can also return more entries than are available: with 3 entries,
`numRecommendations = 10` and `randomFactor = 1/2` it returns 6 entries
(the top 3 plus 3 duplicates), not the 3 available. -/
theorem claim_randomized_bounds_counterexample :
    (getRandomizedRecommendations (fun l => l) (fun l => l)
        [("a", 3), ("b", 2), ("c", 1)] 2 (-1)).length = 3
    ∧ (getRandomizedRecommendations (fun l => l) (fun l => l)
        [("a", 3), ("b", 2), ("c", 1)] 10 (1 / 2)).length = 6 := by
  constructor
  · rw [getRandomized_pos_eq _ _ _ _ _ (by norm_num : ¬(2 : ℤ) ≤ 0)]
    rw [show truncToInt (((2 : ℤ) : ℝ) * (-1)) = -2 by
      rw [show ((2 : ℤ) : ℝ) * (-1) = ((-2 : ℤ) : ℝ) by push_cast; ring]
      exact truncToInt_intCast (-2)]
    rfl
  · rw [getRandomized_pos_eq _ _ _ _ _ (by norm_num : ¬(10 : ℤ) ≤ 0)]
    rw [show truncToInt (((10 : ℤ) : ℝ) * (1 / 2)) = 5 by
      rw [show ((10 : ℤ) : ℝ) * (1 / 2) = ((5 : ℤ) : ℝ) by push_cast; norm_num]
      exact truncToInt_intCast 5]
    rfl

/-- C8 (amended): `getRandomizedRecommendations` returns the empty list for
every `numRecommendations ≤ 0`; for `randomFactor ∈ [0,1]` (and an in-range
`numRecommendations`) the output length is at most `numRecommendations`;
every returned entry comes from the input list (no padding ever happens,
though entries may be duplicated); and with `randomFactor = 0` a list no
longer than the request is returned in full (a permutation of the input).
For `randomFactor` outside [0,1] the length bound fails (see the
counterexample). -/
theorem claim_randomized_bounds
    (shuffleA shuffleB : List (String × ℝ) → List (String × ℝ))
    (hA : ∀ l, (shuffleA l).Perm l) (hB : ∀ l, (shuffleB l).Perm l)
    (recs : List (String × ℝ)) (n : ℤ) (rf : ℝ) :
    (n ≤ 0 → getRandomizedRecommendations shuffleA shuffleB recs n rf = [])
    ∧ (0 ≤ rf → rf ≤ 1 → n < 2 ^ 31 →
        (getRandomizedRecommendations shuffleA shuffleB recs n rf).length ≤ n.toNat)
    ∧ (∀ e ∈ getRandomizedRecommendations shuffleA shuffleB recs n rf, e ∈ recs)
    ∧ (rf = 0 → n < 2 ^ 31 → recs.length ≤ n.toNat →
        (getRandomizedRecommendations shuffleA shuffleB recs n rf).Perm recs) := by
  refine ⟨fun hn => getRandomized_nonpos shuffleA shuffleB recs n rf hn,
    fun h0 h1 hmax => getRandomized_length_le shuffleA shuffleB hA hB recs n rf hmax h0 h1,
    getRandomized_no_padding shuffleA shuffleB hA hB recs n rf, ?_⟩
  intro hrf hmax hlen
  subst hrf
  by_cases hn : n ≤ 0
  · have hz : recs = [] := by
      have ht : n.toNat = 0 := by omega
      rw [ht] at hlen
      exact List.length_eq_zero.mp (Nat.le_zero.mp hlen)
    rw [hz, getRandomized_nonpos shuffleA shuffleB [] n 0 hn]
  · have hperm := getRandomized_zero_factor shuffleA shuffleB hA hB recs n (by omega) hmax
    rw [List.take_of_length_le hlen] at hperm
    exact hperm

theorem claim_randomized_bounds_witness :
    ((3 : ℤ) ≤ 0 → getRandomizedRecommendations (fun l => l) (fun l => l)
        [("a", 2), ("b", 1)] 3 0 = [])
    ∧ ((0 : ℝ) ≤ 0 → (0 : ℝ) ≤ 1 → (3 : ℤ) < 2 ^ 31 →
        (getRandomizedRecommendations (fun l => l) (fun l => l)
          [("a", 2), ("b", 1)] 3 0).length ≤ (3 : ℤ).toNat)
    ∧ (∀ e ∈ getRandomizedRecommendations (fun l => l) (fun l => l)
          [("a", 2), ("b", 1)] 3 0, e ∈ [("a", (2 : ℝ)), ("b", 1)])
    ∧ ((0 : ℝ) = 0 → (3 : ℤ) < 2 ^ 31 →
        ([("a", (2 : ℝ)), ("b", 1)]).length ≤ (3 : ℤ).toNat →
        (getRandomizedRecommendations (fun l => l) (fun l => l)
          [("a", 2), ("b", 1)] 3 0).Perm [("a", (2 : ℝ)), ("b", 1)]) :=
  claim_randomized_bounds (fun l => l) (fun l => l) (fun l => List.Perm.refl l)
    (fun l => List.Perm.refl l) [("a", 2), ("b", 1)] 3 0

/-- C9 counterexample: `combineRecommendations` with equal weights is not
commutative as sequence equality: on the tied-score inputs
`[("x",1)]` and `[("y",1)]` with both weights 1, swapping the arguments
swaps the order of the two tied entries. -/
theorem claim_combine_comm_counterexample :
    combineRecommendations [("x", 1)] [("y", 1)] 1 1 ≠
      combineRecommendations [("y", 1)] [("x", 1)] 1 1 := by
  have h1 : combineRecommendations [("x", 1)] [("y", 1)] 1 1 =
      sortDesc [("x", (1 : ℝ) * 1), ("y", (1 : ℝ) * 1)] := rfl
  have h2 : combineRecommendations [("y", 1)] [("x", 1)] 1 1 =
      sortDesc [("y", (1 : ℝ) * 1), ("x", (1 : ℝ) * 1)] := rfl
  have hs1 : sortDesc [("x", (1 : ℝ) * 1), ("y", (1 : ℝ) * 1)] =
      [("x", (1 : ℝ) * 1), ("y", (1 : ℝ) * 1)] := by
    unfold sortDesc
    simp only [List.foldl_cons, List.foldl_nil]
    rw [show insertDesc ("x", (1 : ℝ) * 1) [] = [("x", (1 : ℝ) * 1)] from rfl,
      insertDesc_cons, if_neg (by norm_num :
        ¬(("x", (1 : ℝ) * 1) : String × ℝ).2 < (("y", (1 : ℝ) * 1) : String × ℝ).2)]
    rfl
  have hs2 : sortDesc [("y", (1 : ℝ) * 1), ("x", (1 : ℝ) * 1)] =
      [("y", (1 : ℝ) * 1), ("x", (1 : ℝ) * 1)] := by
    unfold sortDesc
    simp only [List.foldl_cons, List.foldl_nil]
    rw [show insertDesc ("y", (1 : ℝ) * 1) [] = [("y", (1 : ℝ) * 1)] from rfl,
      insertDesc_cons, if_neg (by norm_num :
        ¬(("y", (1 : ℝ) * 1) : String × ℝ).2 < (("x", (1 : ℝ) * 1) : String × ℝ).2)]
    rfl
  rw [h1, h2, hs1, hs2]
  intro hc
  simp only [List.cons.injEq, Prod.mk.injEq] at hc
  exact (by decide : ("x" : String) ≠ "y") hc.1.1

/-- C9 (amended): with equal weights, swapping the two input lists of
`combineRecommendations` yields a permutation of the same output — the same
set of scored entries, the same combined score per id — though not
necessarily the same sequence when scores tie (see the counterexample). -/
theorem claim_combine_comm_amended (A B : List (String × ℝ)) (w : ℝ) :
    (combineRecommendations A B w w).Perm (combineRecommendations B A w w) :=
  combine_comm_perm A B w

/-- C10: with `randomFactor = 1` and any positive `numRecommendations`, the
whole request is assigned to the random portion, `numTop` is 0, the top slice
and the pool drawn from it are both empty, and the function returns the empty
list even on a non-empty input. -/
theorem claim_full_random_empty
    (shuffleA shuffleB : List (String × ℝ) → List (String × ℝ))
    (hA : ∀ l, (shuffleA l).Perm l) (hB : ∀ l, (shuffleB l).Perm l)
    (recs : List (String × ℝ)) (n : ℤ) (hn : 0 < n) :
    getRandomizedRecommendations shuffleA shuffleB recs n 1 = [] :=
  getRandomized_full_random shuffleA shuffleB hA hB recs n hn

theorem claim_full_random_empty_witness :
    getRandomizedRecommendations (fun l => l) (fun l => l) [("a", 1)] 1 1 = [] :=
  claim_full_random_empty (fun l => l) (fun l => l) (fun l => List.Perm.refl l)
    (fun l => List.Perm.refl l) [("a", 1)] 1 (by norm_num)

end RecSys
